import Mathlib

/-!
Verification of the DNC memory module `scratch/layers/dnc/memory.py`.

The module is embedded shallowly over the rationals.  Tensors become nested
lists: a batch of states is a `List MemState`, a matrix is a `List (List ℚ)`
with rows outermost, and the singleton middle dimension of the `(B, 1, N)`
tensors (usage, allocation, precedence, write weights) is kept for the write
weights (which the source transposes and tiles as a `(1, N)` matrix) and
collapsed to a plain row for usage and precedence, whose arithmetic in the
source is purely elementwise on that row.

The two transcendental kernels of the source, `torch.exp` (inside
`functional.softmax`) and `nn.CosineSimilarity` (a quotient of an inner
product by epsilon-guarded norms), are not rational functions; the embedding
abstracts them as a `NumBackend` parameter.  Every universally quantified
theorem below holds for an arbitrary backend (assuming only positivity of
`exp`, which the real exponential satisfies), and every concrete evaluation is
arranged so that the backend values cancel or are scaled by zero, so the
results transfer to the floating-point program.
-/

/-- Numeric kernels of the source that are not rational functions: the
exponential used by `functional.softmax` and the cosine similarity
`nn.CosineSimilarity` between a key and a memory row. -/
structure NumBackend where
  exp : ℚ → ℚ
  cos : List ℚ → List ℚ → ℚ

/-- A backend with trivially positive exponential, used to instantiate
concrete evaluations in which the backend values cancel. -/
def trivBk : NumBackend where
  exp := fun _ => 1
  cos := fun _ _ => 0

/-- Dot product of two rows. -/
def dot (a b : List ℚ) : ℚ := (List.zipWith (· * ·) a b).sum

/-- One step of the matrix transpose: prepend the entries of a row onto the
accumulated columns. -/
def transposeAuxL : List ℚ → List (List ℚ) → List (List ℚ)
  | [], acc => acc
  | a :: as, [] => [a] :: transposeAuxL as []
  | a :: as, r :: rs => (a :: r) :: transposeAuxL as rs

/-- Transpose of a matrix, mirroring `torch.transpose(m, 1, 2)` on one batch
element. -/
def transposeL (m : List (List ℚ)) : List (List ℚ) := m.foldr transposeAuxL []

/-- Matrix product, mirroring `torch.bmm` on one batch element. -/
def matMul (A B : List (List ℚ)) : List (List ℚ) :=
  A.map fun row => (transposeL B).map fun col => dot row col

/-- Elementwise combination of two rows. -/
def map2V (f : ℚ → ℚ → ℚ) (a b : List ℚ) : List ℚ := List.zipWith f a b

/-- Elementwise combination of two matrices. -/
def map2M (f : ℚ → ℚ → ℚ) (A B : List (List ℚ)) : List (List ℚ) :=
  List.zipWith (List.zipWith f) A B

/-- Scale each row of a matrix by the matching scalar of a list, mirroring
broadcasting a `(R, 1)` tensor against a `(R, N)` tensor. -/
def scaleRows (m : List (List ℚ)) (cs : List ℚ) : List (List ℚ) :=
  List.zipWith (fun row c => row.map fun x => x * c) m cs

/-- Softmax of a one-dimensional tensor, `functional.softmax(v, dim=0)`. -/
def softmax (bk : NumBackend) (v : List ℚ) : List ℚ :=
  v.map fun x => bk.exp x / (v.map bk.exp).sum

/-- Softmax of a two-dimensional tensor along dimension 0, that is along the
columns: `functional.softmax(m, dim=0)` for a matrix argument. -/
def softmaxDim0 (bk : NumBackend) (m : List (List ℚ)) : List (List ℚ) :=
  transposeL ((transposeL m).map (softmax bk))

/-- Persistent per-batch-element state owned by `Memory`: the fields
`self.memory` `(N, W)`, `self.usage` `(1, N)`, `self.temporal_link` `(N, N)`,
`self.precedence` `(1, N)` and `self.read_weights` `(R, N)` of one batch
element, with the singleton dimensions collapsed. -/
structure MemState where
  memory : List (List ℚ)
  usage : List ℚ
  temporal_link : List (List ℚ)
  precedence : List ℚ
  read_weights : List (List ℚ)

instance : Inhabited MemState := ⟨⟨[], [], [], [], []⟩⟩

/-- Interface fields consumed by one batch element of `Memory.forward`.
`read_modes` lists, per read head, the slices `read_modes[:, :, 0]`,
`read_modes[:, :, 1]` and `read_modes[:, :, 2]` of the source (forward,
backward, content). -/
structure Iface where
  write_key : List ℚ
  write_strength : ℚ
  allocation_gate : ℚ
  write_gate : ℚ
  erase_vector : List ℚ
  write_vector : List ℚ
  read_keys : List (List ℚ)
  read_strength : List ℚ
  read_modes : List (ℚ × ℚ × ℚ)
  free_gates : List ℚ

instance : Inhabited Iface := ⟨⟨[], 0, 0, 0, [], [], [], [], [], []⟩⟩

/-- Embedding of `Memory.write_addressing_` for one batch element: cosine
similarities of the key against every memory row, unsqueezed to a `(1, N)`
tensor, scaled by the strength, then `softmax(…, dim=0)` — which the source
applies along the singleton dimension. -/
def write_addressing_ (bk : NumBackend) (memory : List (List ℚ)) (key : List ℚ)
    (strength : ℚ) : List (List ℚ) :=
  let similarities := memory.map fun row => bk.cos key row
  softmaxDim0 bk [similarities.map fun x => x * strength]

/-- Embedding of `Memory.read_addressing_` for one batch element: per head, a
softmax over the cosine similarities of the head key against every memory row;
the stacked `(R, N)` result is then multiplied by the `(R, 1)` strength tensor
— after the softmax, as in the source. -/
def read_addressing_ (bk : NumBackend) (memory : List (List ℚ))
    (keys : List (List ℚ)) (strengths : List ℚ) : List (List ℚ) :=
  let similarities :=
    keys.map fun k => softmax bk (memory.map fun row => bk.cos k row)
  List.zipWith (fun row s => row.map fun x => x * s) similarities strengths

/-- Loop body of `Memory.get_allocation_`: walking the usage entries in their
stored order with a running product `multiply` (initialised to 1), emit
`(1 - usage[i]) * multiply` and then fold `usage[i]` into the product. -/
def allocLoop : List ℚ → ℚ → List ℚ
  | [], _ => []
  | u :: us, m => (1 - u) * m :: allocLoop us (m * u)

/-- Embedding of `Memory.get_allocation_` for one batch element.  The source
also evaluates `torch.sort(self.usage, dim=2)` but binds the resulting index
tensor to a variable it never reads, so the walk happens in original row
order; the unused sort is therefore not represented. -/
def get_allocation_ (usage : List ℚ) : List ℚ := allocLoop usage 1

/-- Embedding of `Memory.get_read_weight_` for one batch element: forward and
backward weights from the stored read weights and the temporal link, content
weights from `read_addressing_`, blended per head by the three mode scalars. -/
def get_read_weight_ (bk : NumBackend) (st : MemState) (ifc : Iface) :
    List (List ℚ) :=
  let transpose_temporal_link := transposeL st.temporal_link
  let forward_weights := matMul st.read_weights transpose_temporal_link
  let backward_weights := matMul st.read_weights st.temporal_link
  let content_weights := read_addressing_ bk st.memory ifc.read_keys ifc.read_strength
  let forward_modes := ifc.read_modes.map fun m => m.1
  let backward_modes := ifc.read_modes.map fun m => m.2.1
  let content_modes := ifc.read_modes.map fun m => m.2.2
  map2M (· + ·)
    (map2M (· + ·) (scaleRows forward_weights forward_modes)
      (scaleRows backward_weights backward_modes))
    (scaleRows content_weights content_modes)

/-- The write weights computed inside `Memory.forward` for one batch element:
`allocation_gate * (allocation_weight - write_content_address) +
write_content_address`, then scaled by `write_gate`; a `(1, N)` matrix.
Factored out of the step so that the global write-weight sum used by the
precedence update can be threaded through the batch. -/
def write_weights_of (bk : NumBackend) (st : MemState) (ifc : Iface) :
    List (List ℚ) :=
  let allocation_weight := get_allocation_ st.usage
  let write_content_address :=
    write_addressing_ bk st.memory ifc.write_key ifc.write_strength
  (map2M (fun a c => ifc.allocation_gate * (a - c) + c) [allocation_weight]
      write_content_address).map
    fun row => row.map fun x => x * ifc.write_gate

/-- The retention vector computed inside `Memory.forward`: a row of ones
multiplied, per read head, by `1 - free_gate * read_weight`.  The source binds
`old_read_weights = self.read_weights` after `get_read_weight_` has already
reassigned `self.read_weights`, so the factors use the read weights produced
by the current step, which this embedding mirrors. -/
def retention_of (bk : NumBackend) (st : MemState) (ifc : Iface) : List ℚ :=
  let num_cells := st.memory.length
  (List.zip ifc.free_gates (get_read_weight_ bk st ifc)).foldl
    (fun acc pr => map2V (· * ·) acc (pr.2.map fun x => 1 - pr.1 * x))
    (List.replicate num_cells 1)

/-- Embedding of the body of `Memory.forward` on one batch element, given the
global write-weight sum `S` of the whole batch (the source computes the
precedence decay from `torch.sum(write_weights)`, a sum over every entry of
the batched `(B, 1, N)` tensor).  Mirrors the source line by line: read
weights and read result first, then write, temporal link, precedence and
usage updates.  `num_cells` is `self.memory_size[0]`, the row count of the
memory matrix. -/
def forwardElem (bk : NumBackend) (S : ℚ) (st : MemState) (ifc : Iface) :
    MemState × List (List ℚ) :=
  let read_weights := get_read_weight_ bk st ifc
  let read_result := matMul read_weights st.memory
  let write_weights := write_weights_of bk st ifc
  let transposed_write_weights := transposeL write_weights
  let memory1 := map2M (fun m x => m * (1 - x)) st.memory
    (matMul transposed_write_weights [ifc.erase_vector])
  let memory2 := map2M (· + ·) memory1
    (matMul transposed_write_weights [ifc.write_vector])
  let num_cells := st.memory.length
  let grid_sum := map2M (· + ·)
    (transposed_write_weights.map fun r => (List.replicate num_cells r).flatten)
    ((List.replicate num_cells write_weights).flatten)
  let grid_subtract := grid_sum.map fun r => r.map fun x => 1 - x
  let temporal_link := map2M (· + ·)
    (map2M (· * ·) grid_subtract st.temporal_link)
    (matMul transposed_write_weights [st.precedence])
  let wRow := write_weights.headI
  let precedence := map2V (· + ·) (st.precedence.map fun p => (1 - S) * p) wRow
  let retention_vector := retention_of bk st ifc
  let usage := map2V (· * ·)
    (map2V (fun u w => u + w - u * w) st.usage wRow) retention_vector
  (⟨memory2, usage, temporal_link, precedence, read_weights⟩, read_result)

/-- Sum of every entry of a batched `(B, 1, N)` tensor, mirroring
`torch.sum(write_weights)` in the precedence update of `Memory.forward`. -/
def batchSum (ms : List (List (List ℚ))) : ℚ :=
  (ms.map fun m => (m.map List.sum).sum).sum

/-- Embedding of `Memory.forward` over the whole batch: the write-weight sum
is taken over every batch element, then each element is stepped with that
shared scalar.  Returns, per batch element, the new state and the read
result. -/
def forward (bk : NumBackend) (sts : List MemState) (ifcs : List Iface) :
    List (MemState × List (List ℚ)) :=
  let write_sum :=
    batchSum (List.zipWith (fun st ifc => write_weights_of bk st ifc) sts ifcs)
  List.zipWith (forwardElem bk write_sum) sts ifcs

/-- Shape discipline for a batch element of the persistent state: `N` memory
rows of width `W`, an `N × N` temporal link, and `R` read-weight rows of
length `N`. -/
def MemState.WF (N W R : ℕ) (st : MemState) : Prop :=
  st.memory.length = N ∧ (∀ r ∈ st.memory, r.length = W) ∧
  st.usage.length = N ∧
  st.temporal_link.length = N ∧ (∀ r ∈ st.temporal_link, r.length = N) ∧
  st.precedence.length = N ∧
  st.read_weights.length = R ∧ (∀ r ∈ st.read_weights, r.length = N)

/-- Shape discipline for the interface fields of one batch element. -/
def Iface.WF (N W R : ℕ) (ifc : Iface) : Prop :=
  ifc.write_key.length = W ∧ ifc.erase_vector.length = W ∧
  ifc.write_vector.length = W ∧
  ifc.read_keys.length = R ∧ (∀ k ∈ ifc.read_keys, k.length = W) ∧
  ifc.read_strength.length = R ∧ ifc.read_modes.length = R ∧
  ifc.free_gates.length = R

/-- A two-row memory matrix used to evaluate the content addressing. -/
def cexMemory : List (List ℚ) := [[1, 0], [0, 1]]

/-- A key used to evaluate the content addressing on `cexMemory`. -/
def cexKey : List ℚ := [1, 0]

/-- State with two one-column memory rows, usage `[0, 1]` (row 0 free) and
precedence `[1, 0]` (row 0 was just written). -/
def stLink : MemState :=
  ⟨[[0], [0]], [0, 1], [[0, 0], [0, 0]], [1, 0], [[0, 0]]⟩

/-- Interface with open allocation and write gates and inert read fields;
with `stLink` it produces write weights `[1, 0]`. -/
def ifcLink : Iface :=
  ⟨[0], 0, 1, 1, [0], [0], [[0]], [0], [(0, 0, 0)], [0]⟩

/-- Same as `ifcLink` but with the write gate closed. -/
def ifcLinkNoWrite : Iface := { ifcLink with write_gate := 0 }

/-- State with saturated usage `[1, 1]`, stored read weights `[1, 0]` and a
temporal link that moves the read head from row 0 to row 1. -/
def stShift : MemState :=
  ⟨[[0], [0]], [1, 1], [[0, 0], [1, 0]], [0, 0], [[1, 0]]⟩

/-- Interface with the write gate closed, full free gate on the single read
head and pure forward read mode. -/
def ifcShift : Iface :=
  ⟨[0], 0, 0, 0, [0], [0], [[0]], [0], [(1, 0, 0)], [1]⟩

/-- One-cell state with memory value 1, stored read weight 1 and a unit
self-link, so the forward read mode reproduces weight 1. -/
def stRead : MemState := ⟨[[1]], [0], [[1]], [0], [[1]]⟩

/-- Interface that overwrites the single cell with value 5 (full erase) while
the single read head reads it with weight 1 through the forward mode. -/
def ifcRead : Iface :=
  ⟨[0], 0, 1, 1, [1], [5], [[0]], [0], [(1, 0, 0)], [0]⟩

/-- All-zero one-cell state. -/
def stZero : MemState := ⟨[[0]], [0], [[0]], [0], [[0]]⟩

/-- Interface within the documented field ranges whose write vector is
negative. -/
def ifcNegWrite : Iface :=
  ⟨[0], 0, 1, 1, [0], [-1], [[0]], [0], [(0, 0, 0)], [0]⟩

/-- One-cell state with saturated usage, stored read weight 1 and a unit
self-link. -/
def stFull : MemState := ⟨[[0]], [1], [[1]], [0], [[1]]⟩

/-- Interface within the documented field ranges: write gate closed, full
free gate, and forward read mode 2 (non-negative, as the ranges require). -/
def ifcBigMode : Iface :=
  ⟨[0], 0, 0, 0, [0], [0], [[0]], [0], [(2, 0, 0)], [1]⟩

/-- Membership in a `zipWith` is produced by members of the two lists. -/
theorem forall_mem_zipWith {α β γ : Type} {f : α → β → γ} {P : γ → Prop} :
    ∀ {l₁ : List α} {l₂ : List β}, (∀ a ∈ l₁, ∀ b ∈ l₂, P (f a b)) →
      ∀ x ∈ List.zipWith f l₁ l₂, P x := by
  intro l₁
  induction l₁ with
  | nil => intro l₂ _ x hx; simp at hx
  | cons a as ih =>
    intro l₂ h x hx
    cases l₂ with
    | nil => simp at hx
    | cons b bs =>
      simp only [List.zipWith_cons_cons, List.mem_cons] at hx
      rcases hx with rfl | hx
      · exact h a (by simp) b (by simp)
      · exact ih (fun p hp q hq => h p (by simp [hp]) q (by simp [hq])) x hx

/-- A `zipWith` collapses to its left list when the function ignores the
members of the right list. -/
theorem zipWith_left_id {α β : Type} {f : α → β → α} :
    ∀ (a : List α) (b : List β), a.length ≤ b.length →
      (∀ x ∈ a, ∀ y ∈ b, f x y = x) → List.zipWith f a b = a := by
  intro a
  induction a with
  | nil => intro b _ _; simp
  | cons x xs ih =>
    intro b hlen h
    cases b with
    | nil => simp at hlen
    | cons y ys =>
      simp only [List.zipWith_cons_cons]
      rw [h x (by simp) y (by simp),
        ih ys (by simpa using hlen) (fun p hp q hq => h p (by simp [hp]) q (by simp [hq]))]

/-- A `zipWith` collapses to its right list when the function ignores the
members of the left list. -/
theorem zipWith_right_id {α β : Type} {f : α → β → β} :
    ∀ (a : List α) (b : List β), b.length ≤ a.length →
      (∀ x ∈ a, ∀ y ∈ b, f x y = y) → List.zipWith f a b = b := by
  intro a
  induction a with
  | nil => intro b hlen _; simp at hlen ⊢; simp [hlen]
  | cons x xs ih =>
    intro b hlen h
    cases b with
    | nil => simp
    | cons y ys =>
      simp only [List.zipWith_cons_cons]
      rw [h x (by simp) y (by simp),
        ih ys (by simpa using hlen) (fun p hp q hq => h p (by simp [hp]) q (by simp [hq]))]

/-- Indexing a `zipWith` within bounds indexes the two lists. -/
theorem zipWith_getD {α β γ : Type} (f : α → β → γ) :
    ∀ (a : List α) (b : List β) (i : ℕ) (dA : α) (dB : β) (dC : γ),
      i < a.length → i < b.length →
      (List.zipWith f a b).getD i dC = f (a.getD i dA) (b.getD i dB) := by
  intro a
  induction a with
  | nil => intro b i _ _ _ h _; simp at h
  | cons x xs ih =>
    intro b i dA dB dC ha hb
    cases b with
    | nil => simp at hb
    | cons y ys =>
      cases i with
      | zero => rfl
      | succ j =>
        simp only [List.zipWith_cons_cons, List.getD_cons_succ]
        exact ih ys j dA dB dC (by simpa using ha) (by simpa using hb)

/-- Dividing every member of a list by a constant divides the sum. -/
theorem sum_map_div (l : List ℚ) (c : ℚ) :
    (l.map fun x => x / c).sum = l.sum / c := by
  induction l with
  | nil => simp
  | cons x xs ih => simp [ih, add_div]

/-- Multiplying every member of a list by a constant multiplies the sum. -/
theorem sum_map_mul (l : List ℚ) (c : ℚ) :
    (l.map fun x => x * c).sum = l.sum * c := by
  induction l with
  | nil => simp
  | cons x xs ih => simp [ih, add_mul]

/-- The exponential image of a nonempty list has positive sum. -/
theorem sum_map_exp_pos (bk : NumBackend) (hexp : ∀ x, 0 < bk.exp x)
    (v : List ℚ) (hv : v ≠ []) : 0 < (v.map bk.exp).sum := by
  cases v with
  | nil => cases hv rfl
  | cons a as =>
    simp only [List.map_cons, List.sum_cons]
    exact add_pos_of_pos_of_nonneg (hexp a)
      (List.sum_nonneg (by intro x hx; rcases List.mem_map.mp hx with ⟨y, _, rfl⟩; exact (hexp y).le))

/-- Softmax of a nonempty list sums to 1 when the exponential is positive. -/
theorem softmax_sum (bk : NumBackend) (hexp : ∀ x, 0 < bk.exp x)
    (v : List ℚ) (hv : v ≠ []) : (softmax bk v).sum = 1 := by
  have hD := sum_map_exp_pos bk hexp v hv
  have : softmax bk v = (v.map bk.exp).map fun y => y / (v.map bk.exp).sum := by
    simp [softmax, List.map_map, Function.comp]
  rw [this, sum_map_div]
  exact div_self hD.ne'

/-- Softmax members are non-negative when the exponential is positive. -/
theorem softmax_nonneg (bk : NumBackend) (hexp : ∀ x, 0 < bk.exp x)
    (v : List ℚ) : ∀ x ∈ softmax bk v, 0 ≤ x := by
  intro x hx
  rcases List.mem_map.mp hx with ⟨y, _, rfl⟩
  exact div_nonneg (hexp y).le
    (List.sum_nonneg (by intro z hz; rcases List.mem_map.mp hz with ⟨u, _, rfl⟩; exact (hexp u).le))

/-- The transpose step applied to an empty accumulator turns a row into a
column of singletons. -/
theorem transposeAuxL_nil_eq (r : List ℚ) :
    transposeAuxL r [] = r.map fun x => [x] := by
  induction r with
  | nil => rfl
  | cons a as ih => simp [transposeAuxL, ih]

/-- Transposing a single row produces a column of singletons. -/
theorem transposeL_single (r : List ℚ) :
    transposeL [r] = r.map fun x => [x] := by
  simp [transposeL, transposeAuxL_nil_eq]

/-- Transposing a nonempty column of singletons produces a single row. -/
theorem transposeL_singletons (l : List ℚ) (h : l ≠ []) :
    transposeL (l.map fun x => [x]) = [l] := by
  induction l with
  | nil => cases h rfl
  | cons a as ih =>
    cases as with
    | nil => rfl
    | cons b bs =>
      have hstep : transposeL ((a :: b :: bs).map fun x => [x]) =
          transposeAuxL [a] (transposeL ((b :: bs).map fun x => [x])) := rfl
      rw [hstep, ih (by simp)]
      rfl

/-- Every member of a transposed matrix comes from a member of a row. -/
theorem mem_transposeAuxL {x : ℚ} :
    ∀ (r : List ℚ) (acc : List (List ℚ)) (row : List ℚ),
      row ∈ transposeAuxL r acc → x ∈ row →
      x ∈ r ∨ ∃ r₂ ∈ acc, x ∈ r₂ := by
  intro r
  induction r with
  | nil => intro acc row hrow hx; exact Or.inr ⟨row, hrow, hx⟩
  | cons a as ih =>
    intro acc row hrow hx
    cases acc with
    | nil =>
      simp only [transposeAuxL, List.mem_cons] at hrow
      rcases hrow with rfl | hrow
      · simp at hx; simp [hx]
      · rcases ih [] row hrow hx with h | ⟨r₂, hr₂, _⟩
        · exact Or.inl (by simp [h])
        · simp at hr₂
    | cons c cs =>
      simp only [transposeAuxL, List.mem_cons] at hrow
      rcases hrow with rfl | hrow
      · rcases List.mem_cons.mp hx with rfl | hx
        · exact Or.inl (by simp)
        · exact Or.inr ⟨c, by simp, hx⟩
      · rcases ih cs row hrow hx with h | ⟨r₂, hr₂, hxr⟩
        · exact Or.inl (by simp [h])
        · exact Or.inr ⟨r₂, by simp [hr₂], hxr⟩

/-- Every member of `transposeL m` is a member of a row of `m`. -/
theorem mem_transposeL {x : ℚ} :
    ∀ (m : List (List ℚ)) (row : List ℚ), row ∈ transposeL m → x ∈ row →
      ∃ r ∈ m, x ∈ r := by
  intro m
  induction m with
  | nil => intro row hrow _; simp [transposeL] at hrow
  | cons r rs ih =>
    intro row hrow hx
    have : row ∈ transposeAuxL r (transposeL rs) := hrow
    rcases mem_transposeAuxL r (transposeL rs) row this hx with h | ⟨r₂, hr₂, hxr⟩
    · exact ⟨r, by simp, h⟩
    · rcases ih r₂ hr₂ hxr with ⟨r₃, hr₃, hxr₃⟩
      exact ⟨r₃, by simp [hr₃], hxr₃⟩

/-- Length of the transpose step: the larger of row and accumulator length. -/
theorem transposeAuxL_length :
    ∀ (r : List ℚ) (acc : List (List ℚ)),
      (transposeAuxL r acc).length = max r.length acc.length := by
  intro r
  induction r with
  | nil => intro acc; simp [transposeAuxL]
  | cons a as ih =>
    intro acc
    cases acc with
    | nil => simp [transposeAuxL, ih]
    | cons c cs => simp [transposeAuxL, ih, Nat.succ_max_succ]

/-- A nonempty matrix with rows of uniform length `n` transposes to `n`
rows. -/
theorem transposeL_length_uniform :
    ∀ (m : List (List ℚ)) (n : ℕ), m ≠ [] → (∀ r ∈ m, r.length = n) →
      (transposeL m).length = n := by
  intro m
  induction m with
  | nil => intro n h _; cases h rfl
  | cons r rs ih =>
    intro n _ hr
    have hrlen : r.length = n := hr r (by simp)
    have hstep : (transposeL (r :: rs)).length =
        max r.length (transposeL rs).length := by
      simpa [transposeL] using transposeAuxL_length r (transposeL rs)
    rw [hstep, hrlen]
    cases rs with
    | nil => simp [transposeL]
    | cons q qs =>
      rw [ih n (by simp) (fun p hp => hr p (by simp [hp]))]
      omega

/-- A matrix with `n` rows of uniform length `n` transposes to `n` rows. -/
theorem transposeL_length_sq (m : List (List ℚ)) (n : ℕ) (h1 : m.length = n)
    (h2 : ∀ r ∈ m, r.length = n) : (transposeL m).length = n := by
  cases m with
  | nil => simp at h1; simp [transposeL, h1.symm]
  | cons r rs => exact transposeL_length_uniform (r :: rs) n (by simp) h2

/-- Dot product of singleton rows. -/
theorem dot_single (a b : ℚ) : dot [a] [b] = a * b := by
  simp [dot]

/-- A dot product with an all-zero left factor vanishes. -/
theorem dot_zero_left (a b : List ℚ) (h : ∀ x ∈ a, x = 0) : dot a b = 0 := by
  refine List.sum_eq_zero ?_
  intro x hx
  refine forall_mem_zipWith (f := (· * ·)) (P := fun z => z = 0) ?_ x hx
  intro p hp q _
  simp [h p hp]

/-- A dot product of componentwise non-negative rows is non-negative. -/
theorem dot_nonneg (a b : List ℚ) (ha : ∀ x ∈ a, 0 ≤ x)
    (hb : ∀ x ∈ b, 0 ≤ x) : 0 ≤ dot a b := by
  refine List.sum_nonneg ?_
  intro x hx
  refine forall_mem_zipWith (f := (· * ·)) (P := fun z => 0 ≤ z) ?_ x hx
  intro p hp q hq
  exact mul_nonneg (ha p hp) (hb q hq)

/-- `allocLoop` returns one weight per usage entry. -/
theorem allocLoop_length : ∀ (u : List ℚ) (m : ℚ),
    (allocLoop u m).length = u.length := by
  intro u
  induction u with
  | nil => intro m; rfl
  | cons x xs ih => intro m; simp [allocLoop, ih]

/-- Telescoping sum of `allocLoop`: the weights emitted from a running
product `m` sum to `m - m * u.prod`. -/
theorem allocLoop_sum : ∀ (u : List ℚ) (m : ℚ),
    (allocLoop u m).sum = m - m * u.prod := by
  intro u
  induction u with
  | nil => intro m; simp [allocLoop]
  | cons x xs ih => intro m; simp [allocLoop, ih, List.prod_cons]; ring

/-- `allocLoop` keeps its weights inside `[0, m] ⊆ [0, 1]` whenever the
running product and every usage entry lie in `[0, 1]`. -/
theorem allocLoop_bounds : ∀ (u : List ℚ) (m : ℚ), 0 ≤ m → m ≤ 1 →
    (∀ x ∈ u, 0 ≤ x ∧ x ≤ 1) → ∀ a ∈ allocLoop u m, 0 ≤ a ∧ a ≤ 1 := by
  intro u
  induction u with
  | nil => intro m _ _ _ a ha; simp [allocLoop] at ha
  | cons x xs ih =>
    intro m hm0 hm1 hu a ha
    have hx := hu x (by simp)
    simp only [allocLoop, List.mem_cons] at ha
    rcases ha with rfl | ha
    · constructor
      · exact mul_nonneg (by linarith [hx.2]) hm0
      · nlinarith [hx.1, hx.2]
    · exact ih (m * x) (mul_nonneg hm0 hx.1) (by nlinarith [hx.1, hx.2])
        (fun y hy => hu y (by simp [hy])) a ha

/-- Content addressing over an empty memory matrix is empty. -/
theorem write_addressing_nil (bk : NumBackend) (key : List ℚ) (s : ℚ) :
    write_addressing_ bk [] key s = [] := rfl

/-- Closed form of `write_addressing_` over a nonempty memory: the softmax is
taken along the singleton dimension of the `(1, N)` tensor, so every weight is
the quotient of an exponential by itself. -/
theorem write_addressing_eq (bk : NumBackend) (mem : List (List ℚ))
    (key : List ℚ) (s : ℚ) (h : mem ≠ []) :
    write_addressing_ bk mem key s =
      [mem.map fun r => bk.exp (bk.cos key r * s) / bk.exp (bk.cos key r * s)] := by
  have hs : ∀ x : ℚ, softmax bk [x] = [bk.exp x / bk.exp x] := by
    intro x; simp [softmax]
  show transposeL ((transposeL
      [(mem.map fun row => bk.cos key row).map fun x => x * s]).map
        (softmax bk)) = _
  rw [transposeL_single]
  simp only [List.map_map, Function.comp_def, hs]
  rw [show (mem.map fun r => [bk.exp (bk.cos key r * s) / bk.exp (bk.cos key r * s)]) =
      ((mem.map fun r => bk.exp (bk.cos key r * s) / bk.exp (bk.cos key r * s)).map
        fun x => [x]) by simp [List.map_map, Function.comp_def]]
  exact transposeL_singletons _ (by simpa using h)

/-- With a positive exponential, every weight of `write_addressing_` is
exactly 1: the softmax along the singleton dimension normalises each column
by itself. -/
theorem write_addressing_mem_one (bk : NumBackend) (hexp : ∀ x, 0 < bk.exp x)
    (mem : List (List ℚ)) (key : List ℚ) (s : ℚ) :
    ∀ row ∈ write_addressing_ bk mem key s, ∀ c ∈ row, c = 1 := by
  cases mem with
  | nil => simp [write_addressing_nil]
  | cons r rs =>
    rw [write_addressing_eq bk (r :: rs) key s (by simp)]
    intro row hrow c hc
    rcases List.mem_singleton.mp hrow with rfl
    rcases List.mem_map.mp hc with ⟨q, _, rfl⟩
    exact div_self (hexp _).ne'

/-- With a positive exponential, `write_addressing_` over a nonempty memory
is a single all-ones row. -/
theorem write_addressing_ones (bk : NumBackend) (hexp : ∀ x, 0 < bk.exp x)
    (mem : List (List ℚ)) (key : List ℚ) (s : ℚ) (h : mem ≠ []) :
    write_addressing_ bk mem key s = [mem.map fun _ => 1] := by
  rw [write_addressing_eq bk mem key s h]
  congr 1
  refine List.map_congr_left ?_
  intro r _
  exact div_self (hexp _).ne'

/-- Structure of the write weights: empty for an empty memory, otherwise a
single row with one weight per memory row. -/
theorem write_weights_cases (bk : NumBackend) (st : MemState) (ifc : Iface)
    (N W R : ℕ) (hst : st.WF N W R) :
    (N = 0 ∧ write_weights_of bk st ifc = []) ∨
    (∃ row : List ℚ, write_weights_of bk st ifc = [row] ∧ row.length = N) := by
  obtain ⟨hm, -, hu, -⟩ := hst
  cases hmem : st.memory with
  | nil =>
    left
    refine ⟨by rw [← hm, hmem]; rfl, ?_⟩
    simp [write_weights_of, hmem, write_addressing_nil, map2M]
  | cons r rs =>
    right
    have hne : st.memory ≠ [] := by simp [hmem]
    refine ⟨((List.zipWith (fun a c => ifc.allocation_gate * (a - c) + c)
      (get_allocation_ st.usage)
      (st.memory.map fun q => bk.exp (bk.cos ifc.write_key q * ifc.write_strength) /
        bk.exp (bk.cos ifc.write_key q * ifc.write_strength))).map
        fun x => x * ifc.write_gate), ?_, ?_⟩
    · simp [write_weights_of, write_addressing_eq bk st.memory _ _ hne, map2M]
    · simp only [List.length_map, List.length_zipWith, List.length_map]
      rw [get_allocation_, allocLoop_length, hu, hm]
      omega

/-- The write weight row has one entry per memory row, every row of the write
weight matrix has length `N`, and its transpose has `N` rows. -/
theorem write_weights_shape (bk : NumBackend) (st : MemState) (ifc : Iface)
    (N W R : ℕ) (hst : st.WF N W R) :
    (write_weights_of bk st ifc).headI.length = N ∧
    (∀ row ∈ write_weights_of bk st ifc, row.length = N) ∧
    (transposeL (write_weights_of bk st ifc)).length = N := by
  rcases write_weights_cases bk st ifc N W R hst with ⟨hN, hww⟩ | ⟨row, hww, hlen⟩
  · rw [hww, hN]
    exact ⟨rfl, by simp, rfl⟩
  · rw [hww]
    refine ⟨hlen, by simpa using hlen, ?_⟩
    rw [transposeL_single]
    simpa using hlen

/-- With the write gate closed, every write weight is 0. -/
theorem write_weights_zero (bk : NumBackend) (st : MemState) (ifc : Iface)
    (hwg : ifc.write_gate = 0) :
    ∀ row ∈ write_weights_of bk st ifc, ∀ x ∈ row, x = 0 := by
  intro row hrow x hx
  unfold write_weights_of at hrow
  rcases List.mem_map.mp hrow with ⟨q, -, rfl⟩
  rcases List.mem_map.mp hx with ⟨z, -, rfl⟩
  rw [hwg, mul_zero]

/-- With gates in `[0, 1]` and usage in `[0, 1]`, every write weight lies in
`[0, 1]` (the content column is identically 1 by `write_addressing_mem_one`).
-/
theorem write_weights_bounds (bk : NumBackend) (hexp : ∀ x, 0 < bk.exp x)
    (st : MemState) (ifc : Iface)
    (husage : ∀ x ∈ st.usage, 0 ≤ x ∧ x ≤ 1)
    (hag : 0 ≤ ifc.allocation_gate ∧ ifc.allocation_gate ≤ 1)
    (hwg : 0 ≤ ifc.write_gate ∧ ifc.write_gate ≤ 1) :
    ∀ row ∈ write_weights_of bk st ifc, ∀ x ∈ row, 0 ≤ x ∧ x ≤ 1 := by
  have halloc : ∀ a ∈ get_allocation_ st.usage, 0 ≤ a ∧ a ≤ 1 :=
    allocLoop_bounds st.usage 1 zero_le_one le_rfl husage
  have hone := write_addressing_mem_one bk hexp st.memory ifc.write_key
    ifc.write_strength
  intro row hrow x hx
  unfold write_weights_of at hrow
  rcases List.mem_map.mp hrow with ⟨q, hq, rfl⟩
  rcases List.mem_map.mp hx with ⟨z, hz, rfl⟩
  simp only [map2M] at hq
  have hq2 : ∀ y ∈ q, 0 ≤ y ∧ y ≤ 1 := by
    refine forall_mem_zipWith
      (P := fun l => ∀ y ∈ l, 0 ≤ y ∧ y ≤ 1) ?_ q hq
    intro a ha c hc
    have haeq : a = get_allocation_ st.usage := List.mem_singleton.mp ha
    subst haeq
    refine forall_mem_zipWith (P := fun y => 0 ≤ y ∧ y ≤ 1) ?_
    intro p hp cc hcc
    have hcc1 := hone c hc cc hcc
    subst hcc1
    have hp01 := halloc p hp
    constructor
    · show 0 ≤ ifc.allocation_gate * (p - 1) + 1
      nlinarith [hag.1, hag.2, hp01.1, hp01.2]
    · show ifc.allocation_gate * (p - 1) + 1 ≤ 1
      nlinarith [hag.1, hag.2, hp01.1, hp01.2]
  have hz01 := hq2 z hz
  constructor
  · exact mul_nonneg hz01.1 hwg.1
  · calc z * ifc.write_gate ≤ 1 * 1 :=
        mul_le_mul hz01.2 hwg.2 hwg.1 one_pos.le
    _ = 1 := one_mul 1

/-- The transpose step extends columns of equal count by one entry each. -/
theorem transposeAuxL_row_length :
    ∀ (r : List ℚ) (acc : List (List ℚ)) (L : ℕ), r.length = acc.length →
      (∀ c ∈ acc, c.length = L) → ∀ c ∈ transposeAuxL r acc, c.length = L + 1 := by
  intro r
  induction r with
  | nil =>
    intro acc L hlen hL c hc
    cases acc with
    | nil => simp [transposeAuxL] at hc
    | cons q qs => simp at hlen
  | cons a as ih =>
    intro acc L hlen hL c hc
    cases acc with
    | nil => simp at hlen
    | cons q qs =>
      simp only [transposeAuxL, List.mem_cons] at hc
      rcases hc with rfl | hc
      · simp [hL q (by simp)]
      · exact ih qs L (by simpa using hlen) (fun p hp => hL p (by simp [hp])) c hc

/-- Columns of the transpose of a matrix with uniform row length have length
equal to the row count. -/
theorem transposeL_row_length :
    ∀ (m : List (List ℚ)) (n : ℕ), (∀ r ∈ m, r.length = n) →
      ∀ c ∈ transposeL m, c.length = m.length := by
  intro m
  induction m with
  | nil => intro n _ c hc; simp [transposeL] at hc
  | cons r rs ih =>
    intro n hr c hc
    have hc2 : c ∈ transposeAuxL r (transposeL rs) := hc
    cases rs with
    | nil =>
      rw [show transposeL [] = [] from rfl, transposeAuxL_nil_eq] at hc2
      rcases List.mem_map.mp hc2 with ⟨x, _, rfl⟩
      rfl
    | cons q qs =>
      have hlen : r.length = (transposeL (q :: qs)).length := by
        rw [transposeL_length_uniform (q :: qs) n (by simp)
          (fun p hp => hr p (by simp [hp])), hr r (by simp)]
      have := transposeAuxL_row_length r (transposeL (q :: qs)) (q :: qs).length
        hlen (ih n (fun p hp => hr p (by simp [hp]))) c hc2
      simpa using this

/-- Every row of `matMul A B` has one entry per column of `B`. -/
theorem matMul_row_length (A B : List (List ℚ)) :
    ∀ row ∈ matMul A B, row.length = (transposeL B).length := by
  intro row hrow
  rcases List.mem_map.mp hrow with ⟨r, _, rfl⟩
  simp

/-- Under the shape discipline, every row of `get_read_weight_` has one entry
per memory row. -/
theorem get_read_weight_row_length (bk : NumBackend) (st : MemState)
    (ifc : Iface) (N W R : ℕ) (hst : st.WF N W R) :
    ∀ row ∈ get_read_weight_ bk st ifc, row.length = N := by
  obtain ⟨hm, -, -, hl, hlr, -, -, -⟩ := hst
  have hT1len : (transposeL st.temporal_link).length = N :=
    transposeL_length_sq st.temporal_link N hl hlr
  have hT1rows : ∀ c ∈ transposeL st.temporal_link, c.length = N := by
    intro c hc
    rw [transposeL_row_length st.temporal_link N hlr c hc, hl]
  have hT2len : (transposeL (transposeL st.temporal_link)).length = N := by
    rcases Nat.eq_zero_or_pos N with h0 | hpos
    · have h1 : transposeL st.temporal_link = [] :=
        List.length_eq_zero.mp (by rw [hT1len, h0])
      rw [h1, h0]; rfl
    · have hne : transposeL st.temporal_link ≠ [] := by
        intro h1; rw [h1] at hT1len; simp at hT1len; omega
      exact transposeL_length_uniform (transposeL st.temporal_link) N hne hT1rows
  have hfw : ∀ row ∈ matMul st.read_weights (transposeL st.temporal_link),
      row.length = N := by
    intro row hrow
    rw [matMul_row_length _ _ row hrow, hT2len]
  have hbw : ∀ row ∈ matMul st.read_weights st.temporal_link,
      row.length = N := by
    intro row hrow
    rw [matMul_row_length _ _ row hrow, hT1len]
  have hcw : ∀ row ∈ read_addressing_ bk st.memory ifc.read_keys
      ifc.read_strength, row.length = N := by
    intro row hrow
    unfold read_addressing_ at hrow
    refine forall_mem_zipWith (P := fun row => row.length = N) ?_ row hrow
    intro a ha s _
    rcases List.mem_map.mp ha with ⟨k, _, rfl⟩
    simp [softmax, hm]
  intro row hrow
  unfold get_read_weight_ at hrow
  simp only [map2M] at hrow
  refine forall_mem_zipWith (P := fun row => row.length = N) ?_ row hrow
  intro a ha b hb
  have ha2 : a.length = N := by
    refine forall_mem_zipWith (P := fun row => row.length = N) ?_ a ha
    intro p hp q hq
    have hp2 : p.length = N := by
      unfold scaleRows at hp
      refine forall_mem_zipWith (P := fun row => row.length = N) ?_ p hp
      intro u hu c _
      rw [List.length_map]
      exact hfw u hu
    have hq2 : q.length = N := by
      unfold scaleRows at hq
      refine forall_mem_zipWith (P := fun row => row.length = N) ?_ q hq
      intro u hu c _
      rw [List.length_map]
      exact hbw u hu
    simp [hp2, hq2]
  have hb2 : b.length = N := by
    unfold scaleRows at hb
    refine forall_mem_zipWith (P := fun row => row.length = N) ?_ b hb
    intro u hu c _
    rw [List.length_map]
    exact hcw u hu
  simp [ha2, hb2]

/-- A pointwise property of matrix members transfers to the transpose. -/
theorem forall_mem_transposeL {P : ℚ → Prop} (m : List (List ℚ))
    (h : ∀ r ∈ m, ∀ x ∈ r, P x) :
    ∀ c ∈ transposeL m, ∀ x ∈ c, P x := by
  intro c hc x hx
  rcases mem_transposeL m c hc hx with ⟨r, hr, hxr⟩
  exact h r hr x hxr

/-- A matrix product of componentwise non-negative matrices is componentwise
non-negative. -/
theorem matMul_nonneg (A B : List (List ℚ)) (hA : ∀ r ∈ A, ∀ x ∈ r, 0 ≤ x)
    (hB : ∀ r ∈ B, ∀ x ∈ r, 0 ≤ x) :
    ∀ r ∈ matMul A B, ∀ x ∈ r, 0 ≤ x := by
  intro r hr x hx
  rcases List.mem_map.mp hr with ⟨a, ha, rfl⟩
  rcases List.mem_map.mp hx with ⟨col, hcol, rfl⟩
  exact dot_nonneg a col (hA a ha) (forall_mem_transposeL B hB col hcol)

/-- A matrix product with an all-zero left factor is all-zero. -/
theorem matMul_zero_left (A B : List (List ℚ))
    (hA : ∀ r ∈ A, ∀ x ∈ r, x = 0) :
    ∀ r ∈ matMul A B, ∀ x ∈ r, x = 0 := by
  intro r hr x hx
  rcases List.mem_map.mp hr with ⟨a, ha, rfl⟩
  rcases List.mem_map.mp hx with ⟨col, _, rfl⟩
  exact dot_zero_left a col (hA a ha)

/-- Under the shape discipline and the documented field ranges, every new read
weight produced by `get_read_weight_` is non-negative. -/
theorem get_read_weight_nonneg (bk : NumBackend) (hexp : ∀ x, 0 < bk.exp x)
    (st : MemState) (ifc : Iface)
    (hlink : ∀ r ∈ st.temporal_link, ∀ x ∈ r, 0 ≤ x)
    (hrw : ∀ r ∈ st.read_weights, ∀ x ∈ r, 0 ≤ x)
    (hstr : ∀ s ∈ ifc.read_strength, 0 ≤ s)
    (hmodes : ∀ m ∈ ifc.read_modes, 0 ≤ m.1 ∧ 0 ≤ m.2.1 ∧ 0 ≤ m.2.2) :
    ∀ row ∈ get_read_weight_ bk st ifc, ∀ x ∈ row, 0 ≤ x := by
  have hfw : ∀ r ∈ matMul st.read_weights (transposeL st.temporal_link),
      ∀ x ∈ r, 0 ≤ x :=
    matMul_nonneg _ _ hrw (forall_mem_transposeL _ hlink)
  have hbw : ∀ r ∈ matMul st.read_weights st.temporal_link, ∀ x ∈ r, 0 ≤ x :=
    matMul_nonneg _ _ hrw hlink
  have hcw : ∀ r ∈ read_addressing_ bk st.memory ifc.read_keys
      ifc.read_strength, ∀ x ∈ r, 0 ≤ x := by
    intro r hr
    unfold read_addressing_ at hr
    refine forall_mem_zipWith (P := fun r => ∀ x ∈ r, 0 ≤ x) ?_ r hr
    intro a ha s hs x hx
    rcases List.mem_map.mp ha with ⟨k, -, rfl⟩
    rcases List.mem_map.mp hx with ⟨y, hy, rfl⟩
    exact mul_nonneg (softmax_nonneg bk hexp _ y hy) (hstr s hs)
  have hscale : ∀ (m : List (List ℚ)) (cs : List ℚ),
      (∀ r ∈ m, ∀ x ∈ r, 0 ≤ x) → (∀ c ∈ cs, 0 ≤ c) →
      ∀ r ∈ scaleRows m cs, ∀ x ∈ r, 0 ≤ x := by
    intro m cs hm hcs r hr
    unfold scaleRows at hr
    refine forall_mem_zipWith (P := fun r => ∀ x ∈ r, 0 ≤ x) ?_ r hr
    intro a ha c hc x hx
    rcases List.mem_map.mp hx with ⟨y, hy, rfl⟩
    exact mul_nonneg (hm a ha y hy) (hcs c hc)
  have hadd : ∀ (A B : List (List ℚ)),
      (∀ r ∈ A, ∀ x ∈ r, 0 ≤ x) → (∀ r ∈ B, ∀ x ∈ r, 0 ≤ x) →
      ∀ r ∈ map2M (· + ·) A B, ∀ x ∈ r, 0 ≤ x := by
    intro A B hA hB r hr
    simp only [map2M] at hr
    refine forall_mem_zipWith (P := fun r => ∀ x ∈ r, 0 ≤ x) ?_ r hr
    intro a ha b hb x hx
    refine forall_mem_zipWith (P := fun x => 0 ≤ x) ?_ x hx
    intro p hp q hq
    exact add_nonneg (hA a ha p hp) (hB b hb q hq)
  intro row hrow
  unfold get_read_weight_ at hrow
  refine hadd _ _ (hadd _ _ ?_ ?_) ?_ row hrow
  · exact hscale _ _ hfw (by
      intro c hc; rcases List.mem_map.mp hc with ⟨m, hm, rfl⟩
      exact (hmodes m hm).1)
  · exact hscale _ _ hbw (by
      intro c hc; rcases List.mem_map.mp hc with ⟨m, hm, rfl⟩
      exact (hmodes m hm).2.1)
  · exact hscale _ _ hcw (by
      intro c hc; rcases List.mem_map.mp hc with ⟨m, hm, rfl⟩
      exact (hmodes m hm).2.2)

/-- The retention fold keeps non-negative entries as long as every
`free_gate * read_weight` factor is at most 1. -/
theorem foldl_retention_nonneg :
    ∀ (prs : List (ℚ × List ℚ)), (∀ pr ∈ prs, ∀ x ∈ pr.2, pr.1 * x ≤ 1) →
      ∀ acc : List ℚ, (∀ y ∈ acc, 0 ≤ y) →
      ∀ y ∈ prs.foldl
        (fun acc pr => map2V (· * ·) acc (pr.2.map fun x => 1 - pr.1 * x)) acc,
        0 ≤ y := by
  intro prs
  induction prs with
  | nil => intro _ acc hacc y hy; exact hacc y (by simpa using hy)
  | cons p ps ih =>
    intro h acc hacc y hy
    simp only [List.foldl_cons] at hy
    refine ih (fun q hq => h q (by simp [hq])) _ ?_ y hy
    intro z hz
    unfold map2V at hz
    refine forall_mem_zipWith (P := fun z => 0 ≤ z) ?_ z hz
    intro a ha b hb
    rcases List.mem_map.mp hb with ⟨x, hx, rfl⟩
    have hle := h p (by simp) x hx
    exact mul_nonneg (hacc a ha) (by linarith)

/-- When all free gates vanish, the retention fold is the all-ones row. -/
theorem foldl_retention_ones (N : ℕ) :
    ∀ (prs : List (ℚ × List ℚ)), (∀ pr ∈ prs, pr.1 = 0 ∧ pr.2.length = N) →
      prs.foldl
        (fun acc pr => map2V (· * ·) acc (pr.2.map fun x => 1 - pr.1 * x))
        (List.replicate N 1) = List.replicate N 1 := by
  intro prs
  induction prs with
  | nil => intro _; rfl
  | cons p ps ih =>
    intro h
    have hp := h p (by simp)
    simp only [List.foldl_cons]
    have hmap : p.2.map (fun x => 1 - p.1 * x) = List.replicate N 1 := by
      refine List.eq_replicate_iff.mpr ⟨by simp [hp.2], ?_⟩
      intro b hb
      rcases List.mem_map.mp hb with ⟨x, -, rfl⟩
      rw [hp.1]; ring
    have hstep : map2V (· * ·) (List.replicate N 1)
        (p.2.map fun x => 1 - p.1 * x) = List.replicate N 1 := by
      rw [hmap]
      refine List.eq_replicate_iff.mpr ⟨by simp [map2V], ?_⟩
      intro z hz
      unfold map2V at hz
      refine forall_mem_zipWith (P := fun z => z = 1) ?_ z hz
      intro a ha b hb
      rw [List.eq_of_mem_replicate ha, List.eq_of_mem_replicate hb, one_mul]
    rw [hstep]
    exact ih (fun q hq => h q (by simp [hq]))

/-- The retention vector has non-negative entries whenever every
`free_gate * new_read_weight` product is at most 1. -/
theorem retention_of_nonneg (bk : NumBackend) (st : MemState) (ifc : Iface)
    (h : ∀ pr ∈ List.zip ifc.free_gates (get_read_weight_ bk st ifc),
      ∀ x ∈ pr.2, pr.1 * x ≤ 1) :
    ∀ y ∈ retention_of bk st ifc, 0 ≤ y := by
  unfold retention_of
  exact foldl_retention_nonneg _ h _
    (fun y hy => by rw [List.eq_of_mem_replicate hy]; exact zero_le_one)

/-- With all free gates 0 the retention vector is identically 1. -/
theorem retention_of_ones (bk : NumBackend) (st : MemState) (ifc : Iface)
    (N W R : ℕ) (hst : st.WF N W R) (hfg : ∀ g ∈ ifc.free_gates, g = 0) :
    retention_of bk st ifc = List.replicate st.memory.length 1 := by
  unfold retention_of
  refine foldl_retention_ones st.memory.length _ ?_
  intro pr hpr
  have hm := List.of_mem_zip hpr
  refine ⟨hfg pr.1 hm.1, ?_⟩
  rw [get_read_weight_row_length bk st ifc N W R hst pr.2 hm.2, hst.1]

/-- The global write-weight sum is 0 when every write weight is 0. -/
theorem batchSum_zero (ms : List (List (List ℚ)))
    (h : ∀ m ∈ ms, ∀ row ∈ m, ∀ x ∈ row, x = 0) : batchSum ms = 0 := by
  unfold batchSum
  refine List.sum_eq_zero ?_
  intro s hs
  rcases List.mem_map.mp hs with ⟨m, hm, rfl⟩
  refine List.sum_eq_zero ?_
  intro t ht
  rcases List.mem_map.mp ht with ⟨row, hrow, rfl⟩
  exact List.sum_eq_zero (h m hm row hrow)

/-- One-step unfolding of `forwardElem` into its phase expressions. -/
theorem forwardElem_def (bk : NumBackend) (S : ℚ) (st : MemState)
    (ifc : Iface) :
    forwardElem bk S st ifc =
      (⟨map2M (· + ·)
          (map2M (fun m x => m * (1 - x)) st.memory
            (matMul (transposeL (write_weights_of bk st ifc))
              [ifc.erase_vector]))
          (matMul (transposeL (write_weights_of bk st ifc))
            [ifc.write_vector]),
        map2V (· * ·)
          (map2V (fun u w => u + w - u * w) st.usage
            (write_weights_of bk st ifc).headI)
          (retention_of bk st ifc),
        map2M (· + ·)
          (map2M (· * ·)
            ((map2M (· + ·)
              ((transposeL (write_weights_of bk st ifc)).map fun r =>
                (List.replicate st.memory.length r).flatten)
              ((List.replicate st.memory.length
                (write_weights_of bk st ifc)).flatten)).map
              fun r => r.map fun x => 1 - x)
            st.temporal_link)
          (matMul (transposeL (write_weights_of bk st ifc)) [st.precedence]),
        map2V (· + ·) (st.precedence.map fun p => (1 - S) * p)
          (write_weights_of bk st ifc).headI,
        get_read_weight_ bk st ifc⟩,
      matMul (get_read_weight_ bk st ifc) st.memory) := rfl

/-- An elementwise matrix combination collapses to its left matrix when the
function ignores the members of the right matrix. -/
theorem map2M_left_id (f : ℚ → ℚ → ℚ) (A B : List (List ℚ))
    (hlen : A.length ≤ B.length)
    (h : ∀ ra ∈ A, ∀ rb ∈ B, ra.length ≤ rb.length ∧
      ∀ x ∈ ra, ∀ y ∈ rb, f x y = x) :
    map2M f A B = A := by
  unfold map2M
  refine zipWith_left_id _ _ hlen ?_
  intro a ha b hb
  exact zipWith_left_id _ _ (h a ha b hb).1 (h a ha b hb).2

/-- An elementwise matrix combination collapses to its right matrix when the
function ignores the members of the left matrix. -/
theorem map2M_right_id (f : ℚ → ℚ → ℚ) (A B : List (List ℚ))
    (hlen : B.length ≤ A.length)
    (h : ∀ ra ∈ A, ∀ rb ∈ B, rb.length ≤ ra.length ∧
      ∀ x ∈ ra, ∀ y ∈ rb, f x y = y) :
    map2M f A B = B := by
  unfold map2M
  refine zipWith_right_id _ _ hlen ?_
  intro a ha b hb
  exact zipWith_right_id _ _ (h a ha b hb).1 (h a ha b hb).2

/-- Frame property of one batch element when its write gate and the batch
write-weight sum vanish: memory, temporal link and precedence are unchanged
and usage is scaled elementwise by the retention vector. -/
theorem forwardElem_write_gate_zero (bk : NumBackend) (S : ℚ) (st : MemState)
    (ifc : Iface) (N W R : ℕ) (hst : st.WF N W R) (hifc : ifc.WF N W R)
    (hwg : ifc.write_gate = 0) (hS : S = 0) :
    (forwardElem bk S st ifc).1.memory = st.memory ∧
    (forwardElem bk S st ifc).1.temporal_link = st.temporal_link ∧
    (forwardElem bk S st ifc).1.precedence = st.precedence ∧
    (forwardElem bk S st ifc).1.usage =
      map2V (· * ·) st.usage (retention_of bk st ifc) := by
  obtain ⟨hm, hmr, hu, hl, hlr, hpc, -, -⟩ := id hst
  obtain ⟨-, hev, hwv, -, -, -, -, -⟩ := id hifc
  have hww0 := write_weights_zero bk st ifc hwg
  obtain ⟨hhead, hrows, htlen⟩ := write_weights_shape bk st ifc N W R hst
  have htww0 : ∀ r ∈ transposeL (write_weights_of bk st ifc), ∀ x ∈ r, x = 0 :=
    forall_mem_transposeL _ hww0
  have htwwrows : ∀ r ∈ transposeL (write_weights_of bk st ifc),
      r.length = 1 := by
    rcases write_weights_cases bk st ifc N W R hst with ⟨-, hwwnil⟩ |
      ⟨row, hwweq, -⟩
    · rw [hwwnil]; intro r hr; simp [transposeL] at hr
    · rw [hwweq, transposeL_single]
      intro r hr
      rcases List.mem_map.mp hr with ⟨x, -, rfl⟩
      rfl
  have hhead0 : ∀ y ∈ (write_weights_of bk st ifc).headI, y = 0 := by
    rcases write_weights_cases bk st ifc N W R hst with ⟨-, hwwnil⟩ |
      ⟨row, hwweq, -⟩
    · rw [hwwnil]; intro y hy; exact absurd hy (List.not_mem_nil y)
    · rw [hwweq]; exact hww0 row (by rw [hwweq]; simp)
  have hG2len : ((List.replicate st.memory.length
      (write_weights_of bk st ifc)).flatten).length = N := by
    rcases write_weights_cases bk st ifc N W R hst with ⟨hN0, hwwnil⟩ |
      ⟨row, hwweq, -⟩
    · have hmem0 : st.memory = [] := List.length_eq_zero.mp (by rw [hm, hN0])
      simp [hwwnil, hmem0, hN0]
    · rw [hwweq]
      simp [List.length_flatten, hm]
  have hG2rows : ∀ r ∈ (List.replicate st.memory.length
      (write_weights_of bk st ifc)).flatten, r.length = N := by
    intro r hr
    rcases List.mem_flatten.mp hr with ⟨l, hl2, hrl⟩
    rw [List.eq_of_mem_replicate hl2] at hrl
    exact hrows r hrl
  have hG20 : ∀ r ∈ (List.replicate st.memory.length
      (write_weights_of bk st ifc)).flatten, ∀ x ∈ r, x = 0 := by
    intro r hr
    rcases List.mem_flatten.mp hr with ⟨l, hl2, hrl⟩
    rw [List.eq_of_mem_replicate hl2] at hrl
    exact hww0 r hrl
  have hG1len : ((transposeL (write_weights_of bk st ifc)).map fun r =>
      (List.replicate st.memory.length r).flatten).length = N := by
    rw [List.length_map, htlen]
  have hG1rows : ∀ q ∈ (transposeL (write_weights_of bk st ifc)).map
      (fun r => (List.replicate st.memory.length r).flatten),
      q.length = N := by
    intro q hq
    rcases List.mem_map.mp hq with ⟨r, hr, rfl⟩
    simp [List.length_flatten, htwwrows r hr, hm]
  have hG10 : ∀ q ∈ (transposeL (write_weights_of bk st ifc)).map
      (fun r => (List.replicate st.memory.length r).flatten),
      ∀ x ∈ q, x = 0 := by
    intro q hq x hx
    rcases List.mem_map.mp hq with ⟨r, hr, rfl⟩
    rcases List.mem_flatten.mp hx with ⟨l, hl2, hxl⟩
    rw [List.eq_of_mem_replicate hl2] at hxl
    exact htww0 r hr x hxl
  have hgs0 : ∀ r ∈ map2M (· + ·)
      ((transposeL (write_weights_of bk st ifc)).map fun q =>
        (List.replicate st.memory.length q).flatten)
      ((List.replicate st.memory.length
        (write_weights_of bk st ifc)).flatten), ∀ x ∈ r, x = 0 := by
    intro r hr
    rw [map2M] at hr
    refine forall_mem_zipWith (P := fun r => ∀ x ∈ r, x = 0) ?_ r hr
    intro a ha b hb x hx
    refine forall_mem_zipWith (P := fun x => x = 0) ?_ x hx
    intro p hp q hq
    show p + q = 0
    rw [hG10 a ha p hp, hG20 b hb q hq]; ring
  have hgsrows : ∀ r ∈ map2M (· + ·)
      ((transposeL (write_weights_of bk st ifc)).map fun q =>
        (List.replicate st.memory.length q).flatten)
      ((List.replicate st.memory.length
        (write_weights_of bk st ifc)).flatten), r.length = N := by
    intro r hr
    rw [map2M] at hr
    refine forall_mem_zipWith (P := fun r => r.length = N) ?_ r hr
    intro a ha b hb
    rw [List.length_zipWith, hG1rows a ha, hG2rows b hb]
    omega
  have hgslen : (map2M (· + ·)
      ((transposeL (write_weights_of bk st ifc)).map fun q =>
        (List.replicate st.memory.length q).flatten)
      ((List.replicate st.memory.length
        (write_weights_of bk st ifc)).flatten)).length = N := by
    rw [map2M, List.length_zipWith, hG1len, hG2len]
    omega
  have hmatlen : ∀ v : List ℚ,
      (matMul (transposeL (write_weights_of bk st ifc)) [v]).length = N := by
    intro v
    simp only [matMul, List.length_map]
    exact htlen
  have hmatrows : ∀ (v : List ℚ),
      ∀ r ∈ matMul (transposeL (write_weights_of bk st ifc)) [v],
      r.length = v.length := by
    intro v r hr
    rw [matMul_row_length _ _ r hr, transposeL_single, List.length_map]
  rw [forwardElem_def]
  refine ⟨?_, ?_, ?_, ?_⟩
  · -- memory is unchanged
    have hE0 := matMul_zero_left (transposeL (write_weights_of bk st ifc))
      [ifc.erase_vector] htww0
    have hV0 := matMul_zero_left (transposeL (write_weights_of bk st ifc))
      [ifc.write_vector] htww0
    have hmem1 : map2M (fun m x => m * (1 - x)) st.memory
        (matMul (transposeL (write_weights_of bk st ifc))
          [ifc.erase_vector]) = st.memory := by
      refine map2M_left_id _ _ _ (by rw [hm, hmatlen]) ?_
      intro ra hra rb hrb
      refine ⟨by rw [hmr ra hra, hmatrows _ rb hrb, hev], ?_⟩
      intro x _ y hy
      show x * (1 - y) = x
      rw [hE0 rb hrb y hy]; ring
    rw [hmem1]
    refine map2M_left_id _ _ _ (by rw [hm, hmatlen]) ?_
    intro ra hra rb hrb
    refine ⟨by rw [hmr ra hra, hmatrows _ rb hrb, hwv], ?_⟩
    intro x _ y hy
    show x + y = x
    rw [hV0 rb hrb y hy]; ring
  · -- the temporal link is unchanged
    have hlink1 : map2M (· * ·)
        ((map2M (· + ·)
          ((transposeL (write_weights_of bk st ifc)).map fun q =>
            (List.replicate st.memory.length q).flatten)
          ((List.replicate st.memory.length
            (write_weights_of bk st ifc)).flatten)).map
          fun r => r.map fun x => 1 - x)
        st.temporal_link = st.temporal_link := by
      refine map2M_right_id _ _ _ (by rw [hl, List.length_map, hgslen]) ?_
      intro ra hra rb hrb
      rcases List.mem_map.mp hra with ⟨q, hq2, rfl⟩
      refine ⟨by rw [hlr rb hrb, List.length_map, hgsrows q hq2], ?_⟩
      intro x hx y _
      rcases List.mem_map.mp hx with ⟨z, hz, rfl⟩
      show (1 - z) * y = y
      rw [hgs0 q hq2 z hz]; ring
    rw [hlink1]
    have hP0 := matMul_zero_left (transposeL (write_weights_of bk st ifc))
      [st.precedence] htww0
    refine map2M_left_id _ _ _ (by rw [hl, hmatlen]) ?_
    intro ra hra rb hrb
    refine ⟨by rw [hlr ra hra, hmatrows _ rb hrb, hpc], ?_⟩
    intro x _ y hy
    show x + y = x
    rw [hP0 rb hrb y hy]; ring
  · -- precedence is unchanged
    subst hS
    have hmap : st.precedence.map (fun p => (1 - (0:ℚ)) * p) =
        st.precedence := by simp
    rw [hmap]
    unfold map2V
    refine zipWith_left_id _ _ (by rw [hpc, hhead]) ?_
    intro x _ y hy
    show x + y = x
    rw [hhead0 y hy]; ring
  · -- usage is scaled by retention
    have hinner : map2V (fun u w => u + w - u * w) st.usage
        (write_weights_of bk st ifc).headI = st.usage := by
      unfold map2V
      refine zipWith_left_id _ _ (by rw [hu, hhead]) ?_
      intro x _ y hy
      show x + y - x * y = x
      rw [hhead0 y hy]; ring
    rw [hinner]

/-- C10: for every usage vector with entries in `[0, 1]`, the allocation
weights returned by `get_allocation_` are each in `[0, 1]`, their sum equals
`1 - prod usage`, and hence the sum is at most 1. -/
theorem C10_allocation_sum_bound (u : List ℚ)
    (h : ∀ x ∈ u, 0 ≤ x ∧ x ≤ 1) :
    (∀ a ∈ get_allocation_ u, 0 ≤ a ∧ a ≤ 1) ∧
    (get_allocation_ u).sum = 1 - u.prod ∧
    (get_allocation_ u).sum ≤ 1 := by
  refine ⟨allocLoop_bounds u 1 zero_le_one le_rfl h, ?_, ?_⟩
  · rw [get_allocation_, allocLoop_sum]; ring
  · rw [get_allocation_, allocLoop_sum]
    have : 0 ≤ u.prod := List.prod_nonneg fun x hx => (h x hx).1
    linarith

/-- Witness for C10 at the usage vector `[1/2, 2/5]`. -/
theorem C10_allocation_sum_bound_witness :
    (∀ x ∈ [(1:ℚ)/2, 2/5], 0 ≤ x ∧ x ≤ 1) ∧
    ((∀ a ∈ get_allocation_ [(1:ℚ)/2, 2/5], 0 ≤ a ∧ a ≤ 1) ∧
      (get_allocation_ [(1:ℚ)/2, 2/5]).sum = 1 - ([(1:ℚ)/2, 2/5]).prod ∧
      (get_allocation_ [(1:ℚ)/2, 2/5]).sum ≤ 1) :=
  ⟨by norm_num, C10_allocation_sum_bound [(1:ℚ)/2, 2/5] (by norm_num)⟩

/-- C2: the claim states that `get_allocation_` walks the rows in ascending
usage order and maps the result back to original row order.  The code sorts
but never uses the permutation: on usage `[1/2, 0]` it returns `[1/2, 1/2]`,
while the claimed sorted walk is permutation-equivariant and would return
`[0, 1]` (as the evaluation on the sorted input `[0, 1/2]`, namely `[1, 0]`,
shows after applying the permutation). -/
theorem C2_allocation_ignores_sort :
    get_allocation_ [1/2, 0] = [1/2, 1/2] ∧
    get_allocation_ [0, 1/2] = [1, 0] := by
  constructor <;> norm_num [get_allocation_, allocLoop]

/-- C3: the claim states allocation weights are monotonically decreasing in
usage.  On usage `[1/2, 2/5]` the code assigns the smaller weight `3/10` to
the lower-usage row 1 and the larger weight `1/2` to the higher-usage row 0,
refuting monotonicity. -/
theorem C3_allocation_not_monotone :
    get_allocation_ [1/2, 2/5] = [1/2, 3/10] ∧
    ((2:ℚ)/5 < 1/2 ∧ (3:ℚ)/10 < 1/2) := by
  refine ⟨?_, by norm_num, by norm_num⟩
  norm_num [get_allocation_, allocLoop]

/-- C1: the claim states content addressing multiplies cosine similarity by
the strength and then softmaxes over the row dimension, so weights sum to 1.
In the code, `write_addressing_` softmaxes the `(1, N)` tensor along its
singleton dimension, returning weight 1 for every row (sum `N`), and
`read_addressing_` multiplies the strength after the softmax, so a head with
strength 2 has weights summing to 2. -/
theorem C1_content_addressing_code_bug (bk : NumBackend)
    (hexp : ∀ x, 0 < bk.exp x) :
    write_addressing_ bk cexMemory cexKey 1 = [[1, 1]] ∧
    (read_addressing_ bk cexMemory [cexKey] [2]).map List.sum = [2] := by
  constructor
  · rw [write_addressing_ones bk hexp cexMemory cexKey 1 (by simp [cexMemory])]
    simp [cexMemory]
  · show (List.zipWith (fun row s => row.map fun x => x * s)
      ([cexKey].map fun k =>
        softmax bk (cexMemory.map fun row => bk.cos k row)) [2]).map
      List.sum = [2]
    simp only [List.map_cons, List.map_nil, List.zipWith_cons_cons,
      List.zipWith_nil_right, List.sum_nil]
    rw [sum_map_mul, softmax_sum bk hexp _ (by simp [cexMemory])]
    norm_num

/-- Witness for C1 at a backend with constant positive exponential. -/
theorem C1_content_addressing_code_bug_witness :
    (∀ x, 0 < trivBk.exp x) ∧
    (write_addressing_ trivBk cexMemory cexKey 1 = [[1, 1]] ∧
      (read_addressing_ trivBk cexMemory [cexKey] [2]).map List.sum = [2]) :=
  ⟨fun _ => one_pos, C1_content_addressing_code_bug trivBk fun _ => one_pos⟩

/-- C4: the claim states the temporal-link diagonal is exactly 0 after every
update.  Stepping `stLink` (precedence `[1, 0]`, reachable by writing row 0
from the zero state) with write weights `[1, 0]` leaves the diagonal entry
`link[0][0] = 1`. -/
theorem C4_temporal_link_diagonal_nonzero :
    (forward trivBk [stLink] [ifcLink]).map (fun p => p.1.temporal_link) =
      [[[1, 0], [0, 0]]] := by
  norm_num [forward, forwardElem, batchSum, write_weights_of, get_allocation_,
    allocLoop, write_addressing_, softmaxDim0, softmax, read_addressing_,
    get_read_weight_, retention_of, scaleRows, map2M, map2V, matMul, dot,
    transposeL, transposeAuxL, trivBk, stLink, ifcLink, List.zipWith]

/-- C5: the claim states batch elements are independent and that precedence
decay uses the per-element row sum of the write weights.  The code decays by
`torch.sum` over the whole batched tensor: two runs agreeing on batch element
0 but differing in the write gate of batch element 1 give element 0 precedence
`[0, 0]` versus `[1, 0]`. -/
theorem C5_precedence_couples_batch_elements :
    (forward trivBk [stLink, stLink] [ifcLink, ifcLink]).map
      (fun p => p.1.precedence) = [[0, 0], [0, 0]] ∧
    (forward trivBk [stLink, stLink] [ifcLink, ifcLinkNoWrite]).map
      (fun p => p.1.precedence) = [[1, 0], [0, 0]] := by
  constructor <;>
    norm_num [forward, forwardElem, batchSum, write_weights_of,
      get_allocation_, allocLoop, write_addressing_, softmaxDim0, softmax,
      read_addressing_, get_read_weight_, retention_of, scaleRows, map2M,
      map2V, matMul, dot, transposeL, transposeAuxL, trivBk, stLink, ifcLink,
      ifcLinkNoWrite, List.zipWith]

/-- C7: the claim states the retention multiplier uses the read weights of
the previous step.  The code aliases `old_read_weights` to the already
reassigned `self.read_weights`: from stored read weights `[1, 0]` the step
computes new read weights `[0, 1]` and produces usage `[1, 0]`, whereas the
claimed formula from the stored weights would produce `[0, 1]`. -/
theorem C7_retention_uses_new_read_weights :
    (forward trivBk [stShift] [ifcShift]).map (fun p => p.1.usage) =
      [[1, 0]] ∧
    (forward trivBk [stShift] [ifcShift]).map (fun p => p.1.read_weights) =
      [[[0, 1]]] ∧
    stShift.read_weights = [[1, 0]] ∧
    map2V (fun u r => u * (1 - 1 * r)) stShift.usage
      (stShift.read_weights.headI) = [0, 1] := by
  refine ⟨?_, ?_, rfl, by norm_num [map2V, stShift]⟩ <;>
    norm_num [forward, forwardElem, batchSum, write_weights_of,
      get_allocation_, allocLoop, write_addressing_, softmaxDim0, softmax,
      read_addressing_, get_read_weight_, retention_of, scaleRows, map2M,
      map2V, matMul, dot, transposeL, transposeAuxL, trivBk, stShift,
      ifcShift, List.zipWith]

/-- C8 counterexample: the claim states the read result is taken from the new
read weights and the post-write memory.  Stepping `stRead` with `ifcRead`
returns read result `[[1]]` (the pre-write memory value) although the new
read weights applied to the new memory give `[[5]]`. -/
theorem C8_read_uses_prewrite_memory :
    (forward trivBk [stRead] [ifcRead]).map (fun p => p.2) = [[[1]]] ∧
    (forward trivBk [stRead] [ifcRead]).map
      (fun p => matMul p.1.read_weights p.1.memory) = [[[5]]] := by
  constructor <;>
    norm_num [forward, forwardElem, batchSum, write_weights_of,
      get_allocation_, allocLoop, write_addressing_, softmaxDim0, softmax,
      read_addressing_, get_read_weight_, retention_of, scaleRows, map2M,
      map2V, matMul, dot, transposeL, transposeAuxL, trivBk, stRead, ifcRead,
      List.zipWith]

/-- C8 (amended): the step computes the new read weights from the prior
state, reads from the pre-write memory, stores those read weights, writes
with write weights derived from the old usage, and updates usage with the
retention vector built from the read weights computed this step. -/
theorem C8_step_order (bk : NumBackend) (S : ℚ) (st : MemState)
    (ifc : Iface) :
    (forwardElem bk S st ifc).2 =
      matMul (get_read_weight_ bk st ifc) st.memory ∧
    (forwardElem bk S st ifc).1.read_weights = get_read_weight_ bk st ifc ∧
    (forwardElem bk S st ifc).1.memory =
      map2M (· + ·)
        (map2M (fun m x => m * (1 - x)) st.memory
          (matMul (transposeL (write_weights_of bk st ifc))
            [ifc.erase_vector]))
        (matMul (transposeL (write_weights_of bk st ifc))
          [ifc.write_vector]) ∧
    (forwardElem bk S st ifc).1.usage =
      map2V (· * ·)
        (map2V (fun u w => u + w - u * w) st.usage
          (write_weights_of bk st ifc).headI)
        (retention_of bk st ifc) :=
  ⟨rfl, rfl, rfl, rfl⟩

/-- An in-bounds `getD` is a member of the list. -/
theorem getD_mem {α : Type} :
    ∀ (l : List α) (b : ℕ) (d : α), b < l.length → l.getD b d ∈ l := by
  intro l
  induction l with
  | nil => intro b d h; simp at h
  | cons a as ih =>
    intro b d h
    cases b with
    | zero => simp
    | succ c => simpa using Or.inr (ih c d (by simpa using h))

/-- C6 counterexample: the claim states a step with `write_gate = 0` leaves
usage unchanged, but stepping `stShift` (usage `[1, 1]`) with `ifcShift`
(write gate 0, free gate 1) produces usage `[1, 0]`. -/
theorem C6_usage_changes_with_zero_write_gate :
    ifcShift.write_gate = 0 ∧ stShift.usage = [1, 1] ∧
    (forward trivBk [stShift] [ifcShift]).map (fun p => p.1.usage) =
      [[1, 0]] := by
  refine ⟨rfl, rfl, ?_⟩
  norm_num [forward, forwardElem, batchSum, write_weights_of, get_allocation_,
    allocLoop, write_addressing_, softmaxDim0, softmax, read_addressing_,
    get_read_weight_, retention_of, scaleRows, map2M, map2V, matMul, dot,
    transposeL, transposeAuxL, trivBk, stShift, ifcShift, List.zipWith]

/-- C6 (amended): when the write gate of every batch element is 0, each
element keeps its memory, temporal link and precedence; its usage is multiplied
elementwise by the retention vector built from the read weights computed this
step, and is therefore unchanged whenever the free gates of that element are all
0. -/
theorem C6_write_gate_zero_frame (bk : NumBackend) (N W R : ℕ)
    (sts : List MemState) (ifcs : List Iface)
    (hst : ∀ st ∈ sts, st.WF N W R)
    (hifc : ∀ ifc ∈ ifcs, ifc.WF N W R ∧ ifc.write_gate = 0) :
    ∀ b : ℕ, b < sts.length → b < ifcs.length →
      ((forward bk sts ifcs).getD b default).1.memory =
        (sts.getD b default).memory ∧
      ((forward bk sts ifcs).getD b default).1.temporal_link =
        (sts.getD b default).temporal_link ∧
      ((forward bk sts ifcs).getD b default).1.precedence =
        (sts.getD b default).precedence ∧
      ((forward bk sts ifcs).getD b default).1.usage =
        map2V (· * ·) (sts.getD b default).usage
          (retention_of bk (sts.getD b default) (ifcs.getD b default)) ∧
      ((∀ g ∈ (ifcs.getD b default).free_gates, g = 0) →
        ((forward bk sts ifcs).getD b default).1.usage =
          (sts.getD b default).usage) := by
  have hS0 : batchSum
      (List.zipWith (fun st ifc => write_weights_of bk st ifc) sts ifcs) = 0 := by
    refine batchSum_zero _ ?_
    intro m hm
    refine forall_mem_zipWith (P := fun m => ∀ row ∈ m, ∀ x ∈ row, x = 0)
      ?_ m hm
    intro st _ ifc hifcm
    exact write_weights_zero bk st ifc (hifc ifc hifcm).2
  intro b hb1 hb2
  have hstb := hst _ (getD_mem sts b default hb1)
  have hifcb := hifc _ (getD_mem ifcs b default hb2)
  have hfwd : (forward bk sts ifcs).getD b default =
      forwardElem bk (batchSum
        (List.zipWith (fun st ifc => write_weights_of bk st ifc) sts ifcs))
        (sts.getD b default) (ifcs.getD b default) :=
    zipWith_getD _ sts ifcs b default default default hb1 hb2
  have hframe := forwardElem_write_gate_zero bk _ (sts.getD b default)
    (ifcs.getD b default) N W R hstb hifcb.1 hifcb.2 hS0
  rw [hfwd]
  refine ⟨hframe.1, hframe.2.1, hframe.2.2.1, hframe.2.2.2, ?_⟩
  intro hfg
  rw [hframe.2.2.2,
    retention_of_ones bk (sts.getD b default) (ifcs.getD b default)
      N W R hstb hfg]
  unfold map2V
  refine zipWith_left_id _ _ ?_ ?_
  · rw [List.length_replicate, hstb.2.2.1, hstb.1]
  · intro x _ y hy
    show x * y = x
    rw [List.eq_of_mem_replicate hy]
    exact mul_one x

/-- Witness for the amended C6 at `stShift` and `ifcShift` with a closed
write gate. -/
theorem C6_write_gate_zero_frame_witness :
    (∀ st ∈ [stShift], st.WF 2 1 1) ∧
    (∀ ifc ∈ [ifcShift], ifc.WF 2 1 1 ∧ ifc.write_gate = 0) ∧
    (((forward trivBk [stShift] [ifcShift]).getD 0 default).1.memory =
        (([stShift] : List MemState).getD 0 default).memory ∧
      ((forward trivBk [stShift] [ifcShift]).getD 0 default).1.temporal_link =
        (([stShift] : List MemState).getD 0 default).temporal_link ∧
      ((forward trivBk [stShift] [ifcShift]).getD 0 default).1.precedence =
        (([stShift] : List MemState).getD 0 default).precedence ∧
      ((forward trivBk [stShift] [ifcShift]).getD 0 default).1.usage =
        map2V (· * ·) (([stShift] : List MemState).getD 0 default).usage
          (retention_of trivBk (([stShift] : List MemState).getD 0 default)
            (([ifcShift] : List Iface).getD 0 default)) ∧
      ((∀ g ∈ (([ifcShift] : List Iface).getD 0 default).free_gates, g = 0) →
        ((forward trivBk [stShift] [ifcShift]).getD 0 default).1.usage =
          (([stShift] : List MemState).getD 0 default).usage)) :=
  ⟨by norm_num [MemState.WF, stShift],
    by norm_num [Iface.WF, ifcShift],
    C6_write_gate_zero_frame trivBk 2 1 1 [stShift] [ifcShift]
      (by norm_num [MemState.WF, stShift])
      (by norm_num [Iface.WF, ifcShift]) 0 (by norm_num) (by norm_num)⟩

/-- Rows of the transposed write-weight matrix are singletons. -/
theorem tww_rows_singleton (bk : NumBackend) (st : MemState) (ifc : Iface)
    (N W R : ℕ) (hst : st.WF N W R) :
    ∀ r ∈ transposeL (write_weights_of bk st ifc), r.length = 1 := by
  rcases write_weights_cases bk st ifc N W R hst with ⟨-, hwwnil⟩ |
    ⟨row, hwweq, -⟩
  · rw [hwwnil]; intro r hr; simp [transposeL] at hr
  · rw [hwweq, transposeL_single]
    intro r hr
    rcases List.mem_map.mp hr with ⟨x, -, rfl⟩
    rfl

/-- Members of the head row of the write weights lie in `[0, 1]` under the
field ranges. -/
theorem write_weights_headI_bounds (bk : NumBackend)
    (hexp : ∀ x, 0 < bk.exp x) (st : MemState) (ifc : Iface) (N W R : ℕ)
    (hst : st.WF N W R) (husage : ∀ x ∈ st.usage, 0 ≤ x ∧ x ≤ 1)
    (hag : 0 ≤ ifc.allocation_gate ∧ ifc.allocation_gate ≤ 1)
    (hwg : 0 ≤ ifc.write_gate ∧ ifc.write_gate ≤ 1) :
    ∀ y ∈ (write_weights_of bk st ifc).headI, 0 ≤ y ∧ y ≤ 1 := by
  rcases write_weights_cases bk st ifc N W R hst with ⟨-, hwwnil⟩ |
    ⟨row, hwweq, -⟩
  · rw [hwwnil]; intro y hy; exact absurd hy (List.not_mem_nil y)
  · rw [hwweq]
    exact write_weights_bounds bk hexp st ifc husage hag hwg row
      (by rw [hwweq]; simp)

/-- Non-negativity of the components of one step under the documented field
ranges, a non-negative prior state and retention factors at most 1. -/
theorem forwardElem_nonneg (bk : NumBackend) (hexp : ∀ x, 0 < bk.exp x)
    (S : ℚ) (st : MemState) (ifc : Iface) (N W R : ℕ) (hWF : st.WF N W R)
    (hmem : ∀ r ∈ st.memory, ∀ x ∈ r, 0 ≤ x)
    (husage : ∀ x ∈ st.usage, 0 ≤ x ∧ x ≤ 1)
    (hlink : ∀ r ∈ st.temporal_link, ∀ x ∈ r, 0 ≤ x)
    (hrw : ∀ r ∈ st.read_weights, ∀ x ∈ r, 0 ≤ x)
    (hag : 0 ≤ ifc.allocation_gate ∧ ifc.allocation_gate ≤ 1)
    (hwg : 0 ≤ ifc.write_gate ∧ ifc.write_gate ≤ 1)
    (herase : ∀ x ∈ ifc.erase_vector, 0 ≤ x ∧ x ≤ 1)
    (hwv : ∀ x ∈ ifc.write_vector, 0 ≤ x)
    (hstr : ∀ s ∈ ifc.read_strength, 0 ≤ s)
    (hmodes : ∀ m ∈ ifc.read_modes, 0 ≤ m.1 ∧ 0 ≤ m.2.1 ∧ 0 ≤ m.2.2)
    (hret : ∀ pr ∈ List.zip ifc.free_gates (get_read_weight_ bk st ifc),
      ∀ x ∈ pr.2, pr.1 * x ≤ 1) :
    (∀ r ∈ (forwardElem bk S st ifc).1.memory, ∀ x ∈ r, 0 ≤ x) ∧
    (∀ x ∈ (forwardElem bk S st ifc).1.usage, 0 ≤ x) ∧
    (∀ r ∈ (forwardElem bk S st ifc).1.read_weights, ∀ x ∈ r, 0 ≤ x) := by
  have hwwb := write_weights_bounds bk hexp st ifc husage hag hwg
  have htwwb : ∀ r ∈ transposeL (write_weights_of bk st ifc),
      ∀ x ∈ r, 0 ≤ x ∧ x ≤ 1 := forall_mem_transposeL _ hwwb
  have htwwrows := tww_rows_singleton bk st ifc N W R hWF
  have hE : ∀ r ∈ matMul (transposeL (write_weights_of bk st ifc))
      [ifc.erase_vector], ∀ x ∈ r, 0 ≤ x ∧ x ≤ 1 := by
    intro r hr x hx
    rcases List.mem_map.mp hr with ⟨a, ha, rfl⟩
    rcases List.mem_map.mp hx with ⟨col, hcol, rfl⟩
    rcases List.length_eq_one.mp (htwwrows a ha) with ⟨w, rfl⟩
    rw [transposeL_single] at hcol
    rcases List.mem_map.mp hcol with ⟨e, he, rfl⟩
    rw [dot_single]
    have hw := htwwb [w] ha w (by simp)
    have he2 := herase e he
    exact ⟨mul_nonneg hw.1 he2.1, mul_le_one hw.2 he2.1 he2.2⟩
  have hV : ∀ r ∈ matMul (transposeL (write_weights_of bk st ifc))
      [ifc.write_vector], ∀ x ∈ r, 0 ≤ x :=
    matMul_nonneg _ _ (fun r hr x hx => (htwwb r hr x hx).1)
      (by intro r hr x hx
          rcases List.mem_singleton.mp hr with rfl
          exact hwv x hx)
  have hgrw := get_read_weight_nonneg bk hexp st ifc hlink hrw hstr hmodes
  have hheadb := write_weights_headI_bounds bk hexp st ifc N W R hWF husage
    hag hwg
  rw [forwardElem_def]
  refine ⟨?_, ?_, hgrw⟩
  · -- memory stays non-negative
    intro r hr x hx
    rw [map2M] at hr
    refine forall_mem_zipWith (P := fun r => ∀ x ∈ r, 0 ≤ x) ?_ r hr x hx
    intro a ha b hb y hy
    refine forall_mem_zipWith (P := fun y => 0 ≤ y) ?_ y hy
    intro p hp q hq
    have hq0 : 0 ≤ q := hV b hb q hq
    have hp0 : 0 ≤ p := by
      rw [map2M] at ha
      refine forall_mem_zipWith (P := fun a => ∀ p ∈ a, 0 ≤ p) ?_ a ha p hp
      intro mrow hmrow erow herow z hz
      refine forall_mem_zipWith (P := fun z => 0 ≤ z) ?_ z hz
      intro u hu v hv
      have hv2 := hE erow herow v hv
      have hu2 := hmem mrow hmrow u hu
      show 0 ≤ u * (1 - v)
      nlinarith [hv2.1, hv2.2]
    exact add_nonneg hp0 hq0
  · -- usage stays non-negative
    intro x hx
    unfold map2V at hx
    refine forall_mem_zipWith (P := fun x => 0 ≤ x) ?_ x hx
    intro a ha b hb
    have hb0 : 0 ≤ b := retention_of_nonneg bk st ifc hret b hb
    have ha0 : 0 ≤ a := by
      refine forall_mem_zipWith (P := fun a => 0 ≤ a) ?_ a ha
      intro u hu w hw
      have hu2 := husage u hu
      have hw2 := hheadb w hw
      show 0 ≤ u + w - u * w
      nlinarith [hu2.1, hu2.2, hw2.1, hw2.2]
    exact mul_nonneg ha0 hb0

/-- C9 counterexample: the claim states all listed components stay
non-negative under the documented field ranges.  A write vector `[-1]`
(ranges allow any real write vector) drives a memory cell to `-1`, and a
forward read mode of 2 (ranges require only non-negative modes) makes the
retention factor `1 - 1 * 2` negative and drives usage to `-1`. -/
theorem C9_negative_memory_and_usage :
    (forward trivBk [stZero] [ifcNegWrite]).map (fun p => p.1.memory) =
      [[[-1]]] ∧
    (forward trivBk [stFull] [ifcBigMode]).map (fun p => p.1.usage) =
      [[-1]] := by
  constructor <;>
    norm_num [forward, forwardElem, batchSum, write_weights_of,
      get_allocation_, allocLoop, write_addressing_, softmaxDim0, softmax,
      read_addressing_, get_read_weight_, retention_of, scaleRows, map2M,
      map2V, matMul, dot, transposeL, transposeAuxL, trivBk, stZero,
      ifcNegWrite, stFull, ifcBigMode, List.zipWith]

/-- C9 (amended): with a positive exponential, gates and erase entries in
`[0, 1]`, non-negative strengths, read modes and write vector, a prior state
with non-negative memory, temporal link and read weights and usage in
`[0, 1]`, and every `free_gate * new_read_weight` product at most 1, the
step keeps the allocation weights, the memory matrix, the usage vector and
the blended read weights elementwise non-negative for every batch element. -/
theorem C9_nonneg_amended (bk : NumBackend) (hexp : ∀ x, 0 < bk.exp x)
    (N W R : ℕ) (sts : List MemState) (ifcs : List Iface)
    (hst : ∀ st ∈ sts, st.WF N W R ∧
      (∀ r ∈ st.memory, ∀ x ∈ r, 0 ≤ x) ∧
      (∀ x ∈ st.usage, 0 ≤ x ∧ x ≤ 1) ∧
      (∀ r ∈ st.temporal_link, ∀ x ∈ r, 0 ≤ x) ∧
      (∀ r ∈ st.read_weights, ∀ x ∈ r, 0 ≤ x))
    (hifc : ∀ ifc ∈ ifcs,
      (0 ≤ ifc.allocation_gate ∧ ifc.allocation_gate ≤ 1) ∧
      (0 ≤ ifc.write_gate ∧ ifc.write_gate ≤ 1) ∧
      (∀ x ∈ ifc.erase_vector, 0 ≤ x ∧ x ≤ 1) ∧
      (∀ x ∈ ifc.write_vector, 0 ≤ x) ∧
      (∀ s ∈ ifc.read_strength, 0 ≤ s) ∧
      (∀ m ∈ ifc.read_modes, 0 ≤ m.1 ∧ 0 ≤ m.2.1 ∧ 0 ≤ m.2.2))
    (hret : ∀ st ∈ sts, ∀ ifc ∈ ifcs,
      ∀ pr ∈ List.zip ifc.free_gates (get_read_weight_ bk st ifc),
        ∀ x ∈ pr.2, pr.1 * x ≤ 1) :
    (∀ st ∈ sts, ∀ a ∈ get_allocation_ st.usage, 0 ≤ a ∧ a ≤ 1) ∧
    ∀ out ∈ forward bk sts ifcs,
      (∀ r ∈ out.1.memory, ∀ x ∈ r, 0 ≤ x) ∧
      (∀ x ∈ out.1.usage, 0 ≤ x) ∧
      (∀ r ∈ out.1.read_weights, ∀ x ∈ r, 0 ≤ x) := by
  constructor
  · intro st hstm
    exact allocLoop_bounds st.usage 1 zero_le_one le_rfl (hst st hstm).2.2.1
  · intro out hout
    have hout2 : out ∈ List.zipWith
        (forwardElem bk (batchSum (List.zipWith
          (fun st ifc => write_weights_of bk st ifc) sts ifcs))) sts ifcs :=
      hout
    refine forall_mem_zipWith
      (P := fun out => (∀ r ∈ out.1.memory, ∀ x ∈ r, 0 ≤ x) ∧
        (∀ x ∈ out.1.usage, 0 ≤ x) ∧
        (∀ r ∈ out.1.read_weights, ∀ x ∈ r, 0 ≤ x)) ?_ out hout2
    intro st hstm ifc hifcm
    obtain ⟨hWF, hmem, husage, hlink, hrw⟩ := hst st hstm
    obtain ⟨hag, hwg, herase, hwv, hstr, hmodes⟩ := hifc ifc hifcm
    exact forwardElem_nonneg bk hexp _ st ifc N W R hWF hmem husage hlink hrw
      hag hwg herase hwv hstr hmodes (hret st hstm ifc hifcm)

/-- Concrete evaluation of the new read weights at `stShift`, `ifcShift`. -/
theorem stShift_read_weights :
    get_read_weight_ trivBk stShift ifcShift = [[0, 1]] := by
  norm_num [get_read_weight_, read_addressing_, softmax, scaleRows, map2M,
    matMul, dot, transposeL, transposeAuxL, trivBk, stShift, ifcShift,
    List.zipWith]

/-- The state `stShift` satisfies the shape and range hypotheses. -/
theorem stShift_state_ranges : ∀ st ∈ [stShift], st.WF 2 1 1 ∧
    (∀ r ∈ st.memory, ∀ x ∈ r, 0 ≤ x) ∧
    (∀ x ∈ st.usage, 0 ≤ x ∧ x ≤ 1) ∧
    (∀ r ∈ st.temporal_link, ∀ x ∈ r, 0 ≤ x) ∧
    (∀ r ∈ st.read_weights, ∀ x ∈ r, 0 ≤ x) := by
  norm_num [MemState.WF, stShift]

/-- The interface `ifcShift` satisfies the documented field ranges. -/
theorem ifcShift_ranges : ∀ ifc ∈ [ifcShift],
    (0 ≤ ifc.allocation_gate ∧ ifc.allocation_gate ≤ 1) ∧
    (0 ≤ ifc.write_gate ∧ ifc.write_gate ≤ 1) ∧
    (∀ x ∈ ifc.erase_vector, 0 ≤ x ∧ x ≤ 1) ∧
    (∀ x ∈ ifc.write_vector, 0 ≤ x) ∧
    (∀ s ∈ ifc.read_strength, 0 ≤ s) ∧
    (∀ m ∈ ifc.read_modes, 0 ≤ m.1 ∧ 0 ≤ m.2.1 ∧ 0 ≤ m.2.2) := by
  rintro ifc hifc
  simp only [List.mem_singleton] at hifc
  subst hifc
  refine ⟨by norm_num [ifcShift], by norm_num [ifcShift],
    by norm_num [ifcShift], by norm_num [ifcShift],
    by norm_num [ifcShift], ?_⟩
  rintro m hm
  simp only [ifcShift, List.mem_singleton] at hm
  subst hm
  norm_num

/-- The retention factors at `stShift`, `ifcShift` are at most 1. -/
theorem stShift_retention_safe : ∀ st ∈ [stShift], ∀ ifc ∈ [ifcShift],
    ∀ pr ∈ List.zip ifc.free_gates (get_read_weight_ trivBk st ifc),
      ∀ x ∈ pr.2, pr.1 * x ≤ 1 := by
  rintro st hst ifc hifc pr hpr x hx
  simp only [List.mem_singleton] at hst hifc
  subst hst
  subst hifc
  rw [stShift_read_weights] at hpr
  have hpr2 : pr = (1, [0, 1]) := by
    simpa [ifcShift, List.zip] using hpr
  subst hpr2
  simp only [List.mem_cons, List.not_mem_nil, or_false,
    List.mem_singleton] at hx
  rcases hx with rfl | rfl <;> norm_num

/-- Witness for the amended C9 at `stShift` and `ifcShift`. -/
theorem C9_nonneg_amended_witness :
    (∀ x, 0 < trivBk.exp x) ∧
    (∀ st ∈ [stShift], st.WF 2 1 1 ∧
      (∀ r ∈ st.memory, ∀ x ∈ r, 0 ≤ x) ∧
      (∀ x ∈ st.usage, 0 ≤ x ∧ x ≤ 1) ∧
      (∀ r ∈ st.temporal_link, ∀ x ∈ r, 0 ≤ x) ∧
      (∀ r ∈ st.read_weights, ∀ x ∈ r, 0 ≤ x)) ∧
    (∀ ifc ∈ [ifcShift],
      (0 ≤ ifc.allocation_gate ∧ ifc.allocation_gate ≤ 1) ∧
      (0 ≤ ifc.write_gate ∧ ifc.write_gate ≤ 1) ∧
      (∀ x ∈ ifc.erase_vector, 0 ≤ x ∧ x ≤ 1) ∧
      (∀ x ∈ ifc.write_vector, 0 ≤ x) ∧
      (∀ s ∈ ifc.read_strength, 0 ≤ s) ∧
      (∀ m ∈ ifc.read_modes, 0 ≤ m.1 ∧ 0 ≤ m.2.1 ∧ 0 ≤ m.2.2)) ∧
    (∀ st ∈ [stShift], ∀ ifc ∈ [ifcShift],
      ∀ pr ∈ List.zip ifc.free_gates (get_read_weight_ trivBk st ifc),
        ∀ x ∈ pr.2, pr.1 * x ≤ 1) ∧
    ((∀ st ∈ [stShift], ∀ a ∈ get_allocation_ st.usage, 0 ≤ a ∧ a ≤ 1) ∧
      ∀ out ∈ forward trivBk [stShift] [ifcShift],
        (∀ r ∈ out.1.memory, ∀ x ∈ r, 0 ≤ x) ∧
        (∀ x ∈ out.1.usage, 0 ≤ x) ∧
        (∀ r ∈ out.1.read_weights, ∀ x ∈ r, 0 ≤ x)) :=
  ⟨fun _ => one_pos, stShift_state_ranges, ifcShift_ranges,
    stShift_retention_safe,
    C9_nonneg_amended trivBk (fun _ => one_pos) 2 1 1 [stShift] [ifcShift]
      stShift_state_ranges ifcShift_ranges stShift_retention_safe⟩
